import Mathlib

/-!
Verification of the `ynal` license server (package main, main.go).

The development shallowly embeds the content-negotiation core
(`mostAcceptable`, `AcceptType`), its standard-library collaborators
(`strconv.ParseFloat`, `mime.ParseMediaType`, `strings.Split`,
`slices.SortStableFunc`), the JSON rendering of `LicenseData`
(`encoding/json.Marshal`), and the startup construction (`appHandler`).

Modelling conventions:
* Go strings are modelled as `List Char` (one entry per rune); byte-level
  UTF-8 encoding is not modelled.  All inputs exercised by theorems are ASCII,
  where the two views coincide.
* Go `float64` values are modelled by `GoFloat`: NaN, signed infinity, or a
  finite value carried exactly as an integer fraction (`Frac`, compared by
  cross-multiplication).  IEEE-754 rounding of parsed decimals to the nearest
  double is not modelled (the exact decimal value is kept), and consequently
  `strconv`'s ErrRange out-of-range errors and its 19-digit mantissa
  truncation are not modelled either; comparisons between distinct short
  decimal weights coincide with the exact ones.
-/

namespace Ynal

/-- An exact fraction; every fraction built by the model has a positive
denominator (`Frac.wf`). -/
structure Frac where
  num : ℤ
  den : ℤ
deriving DecidableEq, Repr

def Frac.wf (f : Frac) : Prop := 0 < f.den

instance (f : Frac) : Decidable f.wf := by unfold Frac.wf; infer_instance

/-- Strict `>` on fractions by cross-multiplication (valid for positive
denominators, which `Frac.wf` guarantees for every fraction the model
builds). -/
def Frac.gt (a b : Frac) : Bool := decide (b.num * a.den < a.num * b.den)

/-- The rational value of a fraction (for stating order properties). -/
def Frac.toQ (f : Frac) : ℚ := (f.num : ℚ) / (f.den : ℚ)

/-- Go `float64` value: NaN, an infinity (`pos = true` for `+Inf`), or a
finite value carried exactly. -/
inductive GoFloat : Type where
  | nan : GoFloat
  | inf : Bool → GoFloat
  | finite : Frac → GoFloat
deriving DecidableEq, Repr

/-- IEEE `>` on modelled floats: every comparison involving NaN is false. -/
def GoFloat.gt : GoFloat → GoFloat → Bool
  | .nan, _ => false
  | _, .nan => false
  | .inf s, .inf t => s && !t
  | .inf s, .finite _ => s
  | .finite _, .inf t => !t
  | .finite a, .finite b => a.gt b

/-- The comparator passed to `slices.SortStableFunc` in `mostAcceptable`:
`-1` when the first weight is greater, `1` when smaller, `0` otherwise
(in Go: `a.RelativeWeight > b.RelativeWeight` / `<` / equal branches;
IEEE `a < b` is `b > a`). -/
def cmpWeight (a b : GoFloat) : Int :=
  if a.gt b then -1 else if b.gt a then 1 else 0

/-- Not NaN (and with positive denominator when finite): exactly the
values the Go comparator orders totally, and the shape of every non-NaN
weight the model constructs. -/
def GoFloat.wfOrd : GoFloat → Prop
  | .nan => False
  | .inf _ => True
  | .finite f => f.wf

instance (w : GoFloat) : Decidable w.wfOrd := by
  unfold GoFloat.wfOrd; cases w <;> infer_instance

/-- The extended-real value of a non-NaN float (0 at NaN; only used
under `wfOrd` hypotheses). -/
def GoFloat.e : GoFloat → EReal
  | .nan => 0
  | .inf true => ⊤
  | .inf false => ⊥
  | .finite f => ((f.toQ : ℝ) : EReal)

/-! ### strconv.ParseFloat (bitSize 64), exact-value model -/

/-- ASCII-uppercase folding, as in `strconv`'s `commonPrefixLenIgnoreCase`
and `strings.ToLower` restricted to ASCII (Go's full Unicode case mapping
is not modelled; non-ASCII runes are never media-type token characters). -/
def asciiLower (c : Char) : Char :=
  if 'A' ≤ c ∧ c ≤ 'Z' then Char.ofNat (c.toNat + 32) else c

/-- Case-insensitive (ASCII fold) equality of a string with a lowercase
keyword, as in `commonPrefixLenIgnoreCase` demanding the full keyword and
`ParseFloat` demanding full consumption. -/
def ciEq : List Char → List Char → Bool
  | [], [] => true
  | c :: cs, k :: ks => (asciiLower c = k) && ciEq cs ks
  | _, _ => false

/-- `strconv`'s `lower(c) == t` byte test, `c | 0x20` (used for `'x'`,
`'e'`, `'p'` and hex-letter checks). -/
def lowEq (c t : Char) : Bool := decide ((c.toNat ||| 0x20) = t.toNat)

def isDigit (c : Char) : Bool := '0' ≤ c && c ≤ '9'

def isHexLetter (c : Char) : Bool :=
  'a'.toNat ≤ (c.toNat ||| 0x20) && (c.toNat ||| 0x20) ≤ 'f'.toNat

def hexLetterVal (c : Char) : ℕ := (c.toNat ||| 0x20) - 'a'.toNat + 10

/-- `strconv.special`: `[+-]?(inf|infinity)` or unsigned `nan`,
case-insensitively, and (as enforced by `ParseFloat`) covering the whole
string. -/
def specialFull (s : List Char) : Option GoFloat :=
  match s with
  | [] => none
  | c :: rest =>
    if c = '+' ∨ c = '-' then
      if ciEq rest ['i','n','f'] || ciEq rest ['i','n','f','i','n','i','t','y'] then
        some (.inf (c = '+'))
      else none
    else
      if ciEq s ['i','n','f'] || ciEq s ['i','n','f','i','n','i','t','y'] then
        some (.inf true)
      else if ciEq s ['n','a','n'] then some .nan
      else none

/-- State of `readFloat`'s mantissa loop: `sawdot`, `sawdigits`, digits
counted (`nd`), decimal-point position (`dp`), exact mantissa (`mant`,
uncapped; Go caps at 19 digits and rounds, see file header), underscores
seen. -/
structure ReadState where
  sawdot : Bool
  sawdigits : Bool
  nd : ℕ
  dp : ℤ
  mant : ℕ
  und : Bool
deriving Repr

/-- The digits/underscore/dot loop of `strconv.readFloat`. -/
def mantLoop (hex : Bool) (st : ReadState) : List Char → ReadState × List Char
  | [] => (st, [])
  | c :: rest =>
    if c = '_' then mantLoop hex { st with und := true } rest
    else if c = '.' then
      if st.sawdot then (st, c :: rest)
      else mantLoop hex { st with sawdot := true, dp := st.nd } rest
    else if isDigit c then
      if c = '0' ∧ st.nd = 0 then
        mantLoop hex { st with sawdigits := true, dp := st.dp - 1 } rest
      else
        mantLoop hex
          { st with
            sawdigits := true,
            nd := st.nd + 1,
            mant := st.mant * (if hex then 16 else 10) + (c.toNat - '0'.toNat) } rest
    else if hex && isHexLetter c then
      mantLoop hex
        { st with
          sawdigits := true,
          nd := st.nd + 1,
          mant := st.mant * 16 + hexLetterVal c } rest
    else (st, c :: rest)

/-- The exponent-digits loop of `strconv.readFloat` (exact value kept; Go
clamps the accumulator at 10000, beyond which the result is out of float64
range, see file header). -/
def expLoop : List Char → ℕ → Bool → ℕ × Bool × List Char
  | [], acc, und => (acc, und, [])
  | c :: rest, acc, und =>
    if isDigit c then expLoop rest (acc * 10 + (c.toNat - '0'.toNat)) und
    else if c = '_' then expLoop rest acc true
    else (acc, und, c :: rest)

/-- `strconv.underscoreOK` after the optional sign and base prefix:
`saw` is `'^'` at the beginning, `'0'` after a digit (or base prefix),
`'_'` after an underscore, `'!'` otherwise. -/
def underscoreOKCore (hex : Bool) (saw : Char) : List Char → Bool
  | [] => saw ≠ '_'
  | c :: rest =>
    if isDigit c || (hex && isHexLetter c) then underscoreOKCore hex '0' rest
    else if c = '_' then
      if saw ≠ '0' then false else underscoreOKCore hex '_' rest
    else if saw = '_' then false
    else underscoreOKCore hex '!' rest

/-- `strconv.underscoreOK`: underscores may only separate digits. -/
def underscoreOK (s : List Char) : Bool :=
  let t := match s with
    | c :: rest => if c = '-' ∨ c = '+' then rest else s
    | [] => s
  match t with
  | a :: b :: rest =>
    if a = '0' ∧ lowEq b 'x' then underscoreOKCore true '0' rest
    else underscoreOKCore false '^' t
  | _ => underscoreOKCore false '^' t

/-- Integer powers with a natural exponent, kernel-reduction friendly. -/
def ipow (b : ℤ) : ℕ → ℤ
  | 0 => 1
  | n + 1 => ipow b n * b

/-- The exact value `±mant · base^e` as a fraction with positive
denominator. -/
def fracOfExp (base : ℕ) (mant : ℕ) (neg : Bool) (e : ℤ) : Frac :=
  let n : ℤ := if neg then -(mant : ℤ) else (mant : ℤ)
  match e with
  | .ofNat k => ⟨n * ipow (base : ℤ) k, 1⟩
  | .negSucc k => ⟨n, ipow (base : ℤ) (k + 1)⟩

/-- `strconv.ParseFloat(s, 64)`: `some` exactly when Go returns a nil
error, carrying the parsed value (exactly; see file header for the
rounding/range caveat).  Follows `readFloat`: optional sign, optional
`0x` prefix (hex mantissa with mandatory `p` exponent), digit/dot loop,
optional decimal exponent, full-string consumption, underscore
validation. -/
def parseFloat (s : List Char) : Option GoFloat :=
  match specialFull s with
  | some f => some f
  | none =>
    let (neg, t) := match s with
      | '+' :: rest => (false, rest)
      | '-' :: rest => (true, rest)
      | rest => (false, rest)
    let (hex, body) := match t with
      | a :: b :: r => if a = '0' ∧ lowEq b 'x' ∧ r ≠ [] then (true, r) else (false, t)
      | _ => (false, t)
    let (st, rest1) := mantLoop hex
      { sawdot := false, sawdigits := false, nd := 0, dp := 0, mant := 0, und := false } body
    if ¬ st.sawdigits then none else
    let dp0 : ℤ := if st.sawdot then st.dp else (st.nd : ℤ)
    let dp1 : ℤ := if hex then 4 * dp0 else dp0
    let ndM : ℤ := if hex then 4 * (st.nd : ℤ) else (st.nd : ℤ)
    let finish : ℤ → Bool → Option GoFloat := fun dp2 und =>
      if und ∧ ¬ underscoreOK s then none
      else some (.finite (fracOfExp (if hex then 2 else 10) st.mant neg (dp2 - ndM)))
    match rest1 with
    | c :: rest2 =>
      if lowEq c (if hex then 'p' else 'e') then
        let (esign, rest3) : ℤ × List Char := match rest2 with
          | '+' :: r => (1, r)
          | '-' :: r => (-1, r)
          | r => (1, r)
        match rest3 with
        | d :: _ =>
          if isDigit d then
            let (e, und2, rest4) := expLoop rest3 0 false
            if rest4 = [] then finish (dp1 + esign * (e : ℤ)) (st.und || und2) else none
          else none
        | [] => none
      else none
    | [] => if hex then none else finish dp1 st.und

-- sanity checks for the ParseFloat model
example : parseFloat "0.8".toList = some (.finite ⟨8, 10⟩) := by decide
example : parseFloat "0.9".toList = some (.finite ⟨9, 10⟩) := by decide
example : parseFloat "0".toList = some (.finite ⟨0, 1⟩) := by decide
example : parseFloat "1".toList = some (.finite ⟨1, 1⟩) := by decide
example : parseFloat "5".toList = some (.finite ⟨5, 1⟩) := by decide
example : parseFloat "-1".toList = some (.finite ⟨-1, 1⟩) := by decide
example : parseFloat "nan".toList = some .nan := by decide
example : parseFloat "NaN".toList = some .nan := by decide
example : parseFloat "-nan".toList = none := by decide
example : parseFloat "inf".toList = some (.inf true) := by decide
example : parseFloat "-Infinity".toList = some (.inf false) := by decide
example : parseFloat "".toList = none := by decide
example : parseFloat "1e2".toList = some (.finite ⟨100, 1⟩) := by decide
example : parseFloat "1.5e-1".toList = some (.finite ⟨15, 100⟩) := by decide
example : parseFloat "0x1p-1".toList = some (.finite ⟨1, 2⟩) := by decide
example : parseFloat "0x1.8p1".toList = some (.finite ⟨24, 8⟩) := by decide
example : parseFloat "1_0".toList = some (.finite ⟨10, 1⟩) := by decide
example : parseFloat "1__0".toList = none := by decide
example : parseFloat "_1".toList = none := by decide
example : parseFloat "1_".toList = none := by decide
example : parseFloat "0.1abc".toList = none := by decide
example : parseFloat "infx".toList = none := by decide
example : parseFloat ".5".toList = some (.finite ⟨5, 10⟩) := by decide
example : parseFloat ".".toList = none := by decide
example : parseFloat "0x1".toList = none := by decide
example : parseFloat "00.001".toList = some (.finite ⟨1, 1000⟩) := by decide

/-! ### mime.ParseMediaType model -/

/-- `unicode.IsSpace`: the Unicode White_Space code points. -/
def goIsSpace (c : Char) : Bool :=
  c.toNat ∈ [0x9, 0xA, 0xB, 0xC, 0xD, 0x20, 0x85, 0xA0, 0x1680,
    0x2000, 0x2001, 0x2002, 0x2003, 0x2004, 0x2005, 0x2006, 0x2007,
    0x2008, 0x2009, 0x200A, 0x2028, 0x2029, 0x202F, 0x205F, 0x3000]

/-- `strings.TrimSpace`. -/
def trimSpace (l : List Char) : List Char :=
  ((l.dropWhile goIsSpace).reverse.dropWhile goIsSpace).reverse

/-- `mime`'s `isTSpecial`. -/
def isTSpecial (c : Char) : Bool :=
  c ∈ ['(', ')', '<', '>', '@', ',', ';', ':', '\\', '"', '/', '[', ']', '?', '=']

/-- `mime`'s `isTokenChar`: printable US-ASCII except space and tspecials. -/
def isTokenChar (c : Char) : Bool :=
  0x20 < c.toNat && c.toNat < 0x7f && !isTSpecial c

/-- `mime.consumeToken`: the longest prefix of token characters. -/
def consumeToken (v : List Char) : List Char × List Char :=
  (v.takeWhile isTokenChar, v.dropWhile isTokenChar)

/-- The quoted-string scan inside `mime.consumeValue` (starting after the
opening quote): backslash escapes only before tspecials, bare CR/LF and a
missing closing quote fail (on a one-character tail only a closing quote
succeeds). -/
def quotedString : List Char → Option (List Char × List Char)
  | [] => none
  | [c] => if c = '"' then some ([], []) else none
  | c :: d :: rest =>
    if c = '"' then some ([], d :: rest)
    else if c = '\\' then
      if isTSpecial d then (quotedString rest).map (fun p => (d :: p.1, p.2))
      else (quotedString (d :: rest)).map (fun p => (c :: p.1, p.2))
    else if c = '\r' ∨ c = '\n' then none
    else (quotedString (d :: rest)).map (fun p => (c :: p.1, p.2))

/-- `mime.consumeValue`: a token, or a quoted string; failure is reported
Go-style as an empty value with the input unchanged. -/
def consumeValue (v : List Char) : List Char × List Char :=
  match v with
  | [] => ([], [])
  | c :: rest =>
    if c ≠ '"' then consumeToken v
    else match quotedString rest with
      | some (val, r) => (val, r)
      | none => ([], v)

/-- `mime.consumeMediaParam`: `;` then `token = value`, whitespace-
tolerant; failure is reported Go-style as an empty key with the input
unchanged. -/
def consumeMediaParam (v : List Char) : List Char × List Char × List Char :=
  match v.dropWhile goIsSpace with
  | ';' :: rest1 =>
    let rest2 := rest1.dropWhile goIsSpace
    let param := (consumeToken rest2).1.map asciiLower
    let rest3 := (consumeToken rest2).2
    if param = [] then ([], [], v)
    else
      match rest3.dropWhile goIsSpace with
      | '=' :: rest5 =>
        let rest6 := rest5.dropWhile goIsSpace
        let value := (consumeValue rest6).1
        let rest7 := (consumeValue rest6).2
        if value = [] ∧ rest7 = rest6 then ([], [], v)
        else (param, value, rest7)
      | _ => ([], [], v)
  | _ => ([], [], v)

/-- `mime.checkMediaTypeDisposition`: `token` or `token/token`, nothing
after. -/
def checkMediaTypeDisposition (s : List Char) : Bool :=
  let typ := (consumeToken s).1
  let rest := (consumeToken s).2
  if typ = [] then false
  else match rest with
    | [] => true
    | '/' :: rest1 =>
      !((consumeToken rest1).1).isEmpty && ((consumeToken rest1).2).isEmpty
    | _ => false

/-- Association-list lookup (Go map read). -/
def lookupA {α β : Type} [DecidableEq α] : List (α × β) → α → Option β
  | [], _ => none
  | (k', v) :: rest, k => if k' = k then some v else lookupA rest k

/-- Association-list store (Go map write). -/
def insertA {α β : Type} [DecidableEq α] : List (α × β) → α → β → List (α × β)
  | [], k, v => [(k, v)]
  | (k', v') :: rest, k, v =>
    if k' = k then (k, v) :: rest else (k', v') :: insertA rest k v

theorem length_dropWhile_le' (p : Char → Bool) (l : List Char) :
    (l.dropWhile p).length ≤ l.length := by
  induction l with
  | nil => simp [List.dropWhile]
  | cons c rest ih =>
    by_cases h : p c
    · simp only [List.dropWhile, h, List.length_cons]
      omega
    · simp [List.dropWhile, h]

theorem quotedString_len : ∀ (l : List Char) (pr : List Char × List Char),
    quotedString l = some pr → pr.2.length ≤ l.length
  | [], pr, h => by simp [quotedString] at h
  | [c], pr, h => by
    simp only [quotedString] at h
    split at h
    · cases h; simp
    · cases h
  | c :: d :: rest, pr, h => by
    simp only [quotedString] at h
    split at h
    · cases h; simp
    · split at h
      · split at h
        · rw [Option.map_eq_some'] at h
          obtain ⟨q, hq, rfl⟩ := h
          have := quotedString_len rest q hq
          simp only [List.length_cons]
          omega
        · rw [Option.map_eq_some'] at h
          obtain ⟨q, hq, rfl⟩ := h
          have := quotedString_len (d :: rest) q hq
          simp only [List.length_cons] at this ⊢
          omega
      · split at h
        · cases h
        · rw [Option.map_eq_some'] at h
          obtain ⟨q, hq, rfl⟩ := h
          have := quotedString_len (d :: rest) q hq
          simp only [List.length_cons] at this ⊢
          omega

theorem consumeValue_len (v : List Char) :
    ((consumeValue v).2).length ≤ v.length := by
  match v with
  | [] => simp [consumeValue]
  | c :: rest =>
    by_cases h : c = '"'
    · simp only [consumeValue, h]
      simp only [ite_not, if_pos rfl]
      match hq : quotedString rest with
      | some (val, r) =>
        have := quotedString_len rest (val, r) hq
        simp at this ⊢
        omega
      | none => simp
    · simp only [consumeValue, if_neg, consumeToken, ite_not, if_neg h]
      have := length_dropWhile_le' isTokenChar (c :: rest)
      simpa using this

theorem consumeMediaParam_len (v : List Char) :
    ∀ key value rest, consumeMediaParam v = (key, value, rest) → key ≠ [] →
      rest.length < v.length := by
  intro key value rest h hk
  unfold consumeMediaParam at h
  split at h
  case h_2 => cases h; exact absurd rfl hk
  case h_1 rest1 heq =>
    have hv1 : rest1.length < v.length := by
      have h1 := length_dropWhile_le' goIsSpace v
      rw [heq] at h1
      simp at h1
      omega
    simp only at h
    split at h
    · cases h; exact absurd rfl hk
    · split at h
      case h_2 => cases h; exact absurd rfl hk
      case h_1 rest5 heq5 =>
        have h2 := length_dropWhile_le' goIsSpace rest1
        have h3 := length_dropWhile_le' isTokenChar (rest1.dropWhile goIsSpace)
        have h4 := length_dropWhile_le' goIsSpace ((consumeToken (rest1.dropWhile goIsSpace)).2)
        have h5 : rest5.length <
            (((consumeToken (rest1.dropWhile goIsSpace)).2).dropWhile goIsSpace).length := by
          rw [heq5]; simp
        have h6 := length_dropWhile_le' goIsSpace rest5
        have h7 := consumeValue_len (rest5.dropWhile goIsSpace)
        split at h
        · cases h; exact absurd rfl hk
        · cases h
          simp only [consumeToken] at h4 h5
          omega

/-- The parameter loop of `mime.ParseMediaType`: `params` collects plain
parameters, `cont` the RFC 2231 `name*`-style parameters (keyed by base
name); a duplicate key with a different value or an unconsumable tail is
an error (`none`).  The loop recurses on a fuel counter so that it stays
structural; each successful `consumeMediaParam` consumes at least one
rune (`consumeMediaParam_len`), so the initial fuel `v.length + 1`
supplied by `parseMediaType` can never run out.  Go's final RFC 2231
continuation stitching (which can decode or delete starred parameters) is
not modelled; no claim exercises parameter names containing `*`. -/
def paramLoop : ℕ → List (List Char × List Char) →
    List (List Char × List (List Char × List Char)) → List Char →
    Option (List (List Char × List Char))
  | 0, _, _, _ => none
  | fuel + 1, params, cont, v =>
    match consumeMediaParam (v.dropWhile goIsSpace) with
    | (key, value, rest) =>
      if v.dropWhile goIsSpace = [] then some params
      else if key = [] then
        if trimSpace rest = [';'] then some params else none
      else if key.contains '*' then
        let baseName := key.takeWhile (· ≠ '*')
        let pm := (lookupA cont baseName).getD []
        match lookupA pm key with
        | some v0 =>
          if v0 ≠ value then none
          else paramLoop fuel params (insertA cont baseName (insertA pm key value)) rest
        | none => paramLoop fuel params (insertA cont baseName (insertA pm key value)) rest
      else
        match lookupA params key with
        | some v0 =>
          if v0 ≠ value then none
          else paramLoop fuel (insertA params key value) cont rest
        | none => paramLoop fuel (insertA params key value) cont rest

/-- `mime.ParseMediaType`: `some (mediatype, params)` exactly when Go
returns a nil error (all Go error returns, including
`ErrInvalidMediaParameter` and duplicate parameters, collapse to `none`;
`mostAcceptable` only distinguishes nil from non-nil errors). -/
def parseMediaType (v : List Char) : Option (List Char × List (List Char × List Char)) :=
  let base := v.takeWhile (· ≠ ';')
  let mediatype := trimSpace (base.map asciiLower)
  if ¬ checkMediaTypeDisposition mediatype then none
  else match paramLoop ((v.drop base.length).length + 1) [] [] (v.drop base.length) with
    | none => none
    | some params => some (mediatype, params)

-- sanity checks for the ParseMediaType model
example : parseMediaType "text/plain".toList = some ("text/plain".toList, []) := by decide
example : parseMediaType " text/plain; q=0.8".toList
    = some ("text/plain".toList, [("q".toList, "0.8".toList)]) := by decide
example : parseMediaType "*/*".toList = some ("*/*".toList, []) := by decide
example : parseMediaType "".toList = none := by decide
example : parseMediaType "TEXT/HTML".toList = some ("text/html".toList, []) := by decide
example : parseMediaType "text/plain;".toList = some ("text/plain".toList, []) := by decide
example : parseMediaType "text/plain;q".toList = none := by decide
example : parseMediaType "text/plain;q=0.5;q=0.7".toList = none := by decide
example : parseMediaType "text/plain;q=0.5;q=0.5".toList
    = some ("text/plain".toList, [("q".toList, "0.5".toList)]) := by decide
example : parseMediaType "text/plain; Q=\"0.5\"".toList
    = some ("text/plain".toList, [("q".toList, "0.5".toList)]) := by decide
example : parseMediaType "text".toList = some ("text".toList, []) := by decide
example : parseMediaType "text/".toList = none := by decide

/-! ### mostAcceptable -/

/-- The `AcceptType` struct of main.go. -/
structure AcceptType where
  MediaType : List Char
  RelativeWeight : GoFloat
deriving DecidableEq, Repr

/-- `strings.Split(accept, ",")`: `""` yields `[""]`, and separators are
split wherever they occur. -/
def splitComma : List Char → List (List Char)
  | [] => [[]]
  | c :: rest =>
    if c = ',' then [] :: splitComma rest
    else match splitComma rest with
      | [] => [[c]]
      | p :: ps => (c :: p) :: ps

/-- One iteration of `mostAcceptable`'s parsing loop: parse the media
type, then the weight from the `q` parameter (`params["q"]` is `""` when
absent; an unparseable weight stays at the default 1.0). -/
def parseOption (v : List Char) : Option AcceptType :=
  match parseMediaType v with
  | none => none
  | some (mt, params) =>
    let weight := match parseFloat ((lookupA params ['q']).getD []) with
      | some w => w
      | none => GoFloat.finite ⟨1, 1⟩
    some ⟨mt, weight⟩

/-- The candidate list `acceptable` built by `mostAcceptable` (unparseable
tokens are skipped by `continue`). -/
def acceptableFor (accept : List Char) : List AcceptType :=
  (splitComma accept).filterMap parseOption

/-- One step of Go's insertion sort, acting on the reversed prefix: the
new element moves past every element it compares strictly less than
(`cmp < 0`, i.e. strictly greater weight) and stops at the first other
one, exactly as `insertionSortCmpFunc` bubbles it leftwards. -/
def insRev (x : AcceptType) : List AcceptType → List AcceptType
  | [] => [x]
  | y :: ys =>
    if cmpWeight x.RelativeWeight y.RelativeWeight < 0 then y :: insRev x ys
    else x :: y :: ys

/-- `slices.SortStableFunc(acceptable, cmp)`: for at most 20 elements Go
runs exactly this insertion sort; for longer slices it insertion-sorts
blocks of 20 and merges them stably (`symMerge`), which produces the same
list whenever the comparator is a strict weak order (in particular for
NaN-free weights).  The block merge itself is not modelled. -/
def sortAccept (l : List AcceptType) : List AcceptType :=
  (l.foldl (fun acc x => insRev x acc) []).reverse

/-- The `switch a.MediaType` support table of `mostAcceptable`. -/
def matchType (mt : List Char) : Option String :=
  if mt = "text/plain".toList ∨ mt = "*/*".toList then some "text/plain"
  else if mt = "text/html".toList ∨ mt = "application/xhtml+xml".toList then some "text/html"
  else if mt = "application/json".toList then some "application/json"
  else none

/-- The scan over the sorted candidates, returning the first supported
mapping, with the final `text/plain` default. -/
def firstMatch : List AcceptType → String
  | [] => "text/plain"
  | a :: rest =>
    match matchType a.MediaType with
    | some s => s
    | none => firstMatch rest

/-- `mostAcceptable` on the rune list. -/
def mostAcceptableL (accept : List Char) : String :=
  firstMatch (sortAccept (acceptableFor accept))

/-- `mostAcceptable(accept)` from main.go. -/
def mostAcceptable (accept : String) : String :=
  mostAcceptableL accept.toList

-- sanity checks against the repository's own tests
example : mostAcceptable "text/plain" = "text/plain" := by decide
example : mostAcceptable "text/html" = "text/html" := by decide
example : mostAcceptable "application/json" = "application/json" := by decide
example : mostAcceptable "*/*" = "text/plain" := by decide
example : mostAcceptable "lol/wut" = "text/plain" := by decide
example : mostAcceptable "" = "text/plain" := by decide
example : mostAcceptable "text/css, text/plain; q=0.8, text/html; q=0.9" = "text/html" := by
  decide
example : mostAcceptable "application/xhtml+xml" = "text/html" := by decide
example : mostAcceptable "application/json;q=0" = "application/json" := by decide
example : mostAcceptable "text/html;q=nan, application/json;q=1" = "text/html" := by decide
example : acceptableFor "text/plain;q=5".toList
    = [⟨"text/plain".toList, .finite ⟨5, 1⟩⟩] := by decide

/-! ### Order theory of the weight comparator (for finite weights) -/

/-- A candidate is supported when the switch table maps it. -/
def supported (a : AcceptType) : Bool := (matchType a.MediaType).isSome

/-- The ordered weight of a candidate (meaningful under `wfOrd`). -/
def wg (a : AcceptType) : EReal := a.RelativeWeight.e

/-- No weight in the candidate list is NaN (and fractions are
well-formed): the hypothesis under which the Go comparator is a strict
weak order. -/
def OrdW (l : List AcceptType) : Prop := ∀ a ∈ l, a.RelativeWeight.wfOrd

theorem Frac.gt_toQ {a b : Frac} (ha : a.wf) (hb : b.wf) :
    a.gt b = true ↔ b.toQ < a.toQ := by
  unfold Frac.gt Frac.toQ
  unfold Frac.wf at ha hb
  rw [decide_eq_true_iff, div_lt_div_iff₀ (by exact_mod_cast hb) (by exact_mod_cast ha)]
  exact_mod_cast Iff.rfl

theorem GoFloat.gt_e_lt {x y : GoFloat} (hx : x.wfOrd) (hy : y.wfOrd) :
    (x.gt y = true) ↔ y.e < x.e := by
  cases x with
  | nan => exact absurd hx (by simp [GoFloat.wfOrd])
  | inf s =>
    cases y with
    | nan => exact absurd hy (by simp [GoFloat.wfOrd])
    | inf t =>
      cases s <;> cases t <;>
        simp [GoFloat.gt, GoFloat.e, lt_irrefl, bot_lt_top, not_top_lt]
    | finite b =>
      cases s <;> simp [GoFloat.gt, GoFloat.e, EReal.coe_lt_top, EReal.bot_lt_coe]
  | finite a =>
    cases y with
    | nan => exact absurd hy (by simp [GoFloat.wfOrd])
    | inf t =>
      cases t <;> simp [GoFloat.gt, GoFloat.e, EReal.coe_lt_top, EReal.bot_lt_coe]
    | finite b =>
      show Frac.gt a b = true ↔ _
      rw [Frac.gt_toQ hx hy]
      show _ ↔ ((b.toQ : ℝ) : EReal) < ((a.toQ : ℝ) : EReal)
      rw [EReal.coe_lt_coe_iff, Rat.cast_lt]

theorem cmpWeight_neg_iff (x y : GoFloat) : cmpWeight x y < 0 ↔ x.gt y = true := by
  unfold cmpWeight
  by_cases h : x.gt y = true
  · simp [h]
  · by_cases h2 : y.gt x = true <;> simp [h, h2]

/-- The comparator step used by the insertion sort. -/
def bubbles (x y : AcceptType) : Bool :=
  decide (cmpWeight x.RelativeWeight y.RelativeWeight < 0)

theorem bubbles_iff {x y : AcceptType} (hx : x.RelativeWeight.wfOrd)
    (hy : y.RelativeWeight.wfOrd) : bubbles x y = true ↔ wg y < wg x := by
  unfold bubbles wg
  rw [decide_eq_true_iff, cmpWeight_neg_iff]
  exact GoFloat.gt_e_lt hx hy

theorem insRev_eq (x : AcceptType) (s : List AcceptType) :
    insRev x s = s.takeWhile (bubbles x) ++ x :: s.dropWhile (bubbles x) := by
  induction s with
  | nil => simp [insRev, List.takeWhile, List.dropWhile]
  | cons y ys ih =>
    by_cases h : bubbles x y = true
    · have h' : cmpWeight x.RelativeWeight y.RelativeWeight < 0 := by
        simpa [bubbles] using h
      simp [insRev, if_pos h', List.takeWhile, List.dropWhile, h, ih]
    · have h' : ¬ cmpWeight x.RelativeWeight y.RelativeWeight < 0 := by
        simpa [bubbles] using h
      simp [insRev, if_neg h', List.takeWhile, List.dropWhile, h]

theorem mem_insRev {a x : AcceptType} {s : List AcceptType} :
    a ∈ insRev x s ↔ a = x ∨ a ∈ s := by
  rw [insRev_eq]
  constructor
  · intro h
    rcases List.mem_append.mp h with h1 | h2
    · exact Or.inr ((List.takeWhile_sublist _).subset h1)
    · rcases List.mem_cons.mp h2 with h3 | h4
      · exact Or.inl h3
      · exact Or.inr ((List.dropWhile_sublist _).subset h4)
  · intro h
    rcases h with rfl | h2
    · exact List.mem_append.mpr (Or.inr (List.mem_cons_self _ _))
    · rw [← List.takeWhile_append_dropWhile (p := bubbles x) (l := s)] at h2
      rcases List.mem_append.mp h2 with h3 | h4
      · exact List.mem_append.mpr (Or.inl h3)
      · exact List.mem_append.mpr (Or.inr (List.mem_cons_of_mem _ h4))

/-- Elements the new candidate bubbles past have strictly smaller
weight. -/
theorem takeWhile_lt {x a : AcceptType} {s : List AcceptType}
    (hx : x.RelativeWeight.wfOrd) (hs : OrdW s)
    (ha : a ∈ s.takeWhile (bubbles x)) : wg a < wg x := by
  have hmem := (List.takeWhile_sublist (bubbles x)).subset ha
  have hb : bubbles x a = true := List.mem_takeWhile_imp ha
  exact (bubbles_iff hx (hs a hmem)).mp hb

/-- In an ascending list, every element the new candidate does not bubble
past has weight at least the new candidate's. -/
theorem dropWhile_ge {x : AcceptType} {s : List AcceptType}
    (hx : x.RelativeWeight.wfOrd) (hs : OrdW s)
    (hasc : s.Pairwise (fun a b => wg a ≤ wg b)) :
    ∀ b ∈ s.dropWhile (bubbles x), wg x ≤ wg b := by
  induction s with
  | nil => simp [List.dropWhile]
  | cons a s' ih =>
    intro b hb
    by_cases h : bubbles x a = true
    · rw [List.dropWhile_cons_of_pos h] at hb
      exact ih (fun c hc => hs c (List.mem_cons_of_mem _ hc)) (List.Pairwise.of_cons hasc) b hb
    · rw [List.dropWhile_cons_of_neg h] at hb
      have hxa : wg x ≤ wg a := by
        have := (bubbles_iff hx (hs a (List.mem_cons_self _ _))).not.mp h
        exact le_of_not_lt this
      rcases List.mem_cons.mp hb with rfl | hb'
      · exact hxa
      · exact le_trans hxa ((List.pairwise_cons.mp hasc).1 b hb')

theorem pairwise_insRev {x : AcceptType} {s : List AcceptType}
    (hx : x.RelativeWeight.wfOrd) (hs : OrdW s)
    (hasc : s.Pairwise (fun a b => wg a ≤ wg b)) :
    (insRev x s).Pairwise (fun a b => wg a ≤ wg b) := by
  rw [insRev_eq]
  have hpw := hasc
  rw [← List.takeWhile_append_dropWhile (p := bubbles x) (l := s)] at hpw
  obtain ⟨pA, pB, cross⟩ := List.pairwise_append.mp hpw
  apply List.pairwise_append.mpr
  refine ⟨pA, ?_, ?_⟩
  · rw [List.pairwise_cons]
    exact ⟨fun b hb => dropWhile_ge hx hs hasc b hb, pB⟩
  · intro a ha b hb
    rcases List.mem_cons.mp hb with rfl | hb'
    · exact le_of_lt (takeWhile_lt hx hs ha)
    · exact cross a ha b hb'

/-- The effect of one loop iteration of `mostAcceptable`'s final scan on
the best candidate so far: a supported candidate replaces the current
best only when its weight is strictly greater. -/
def stepBest (acc : Option AcceptType) (x : AcceptType) : Option AcceptType :=
  if supported x then
    match acc with
    | none => some x
    | some b => if x.RelativeWeight.gt b.RelativeWeight then some x else some b
  else acc

/-- The earliest-listed supported candidate of maximal weight. -/
def bestSupported (l : List AcceptType) : Option AcceptType := l.foldl stepBest none

/-- The reversed accumulator built by the insertion sort. -/
def sortAcc (l : List AcceptType) : List AcceptType :=
  l.foldl (fun acc x => insRev x acc) []

theorem sortAccept_eq (l : List AcceptType) : sortAccept l = (sortAcc l).reverse := rfl

/-- Inserting a candidate into the (ascending) accumulator updates the
first supported candidate of the reversed (descending) order exactly like
`stepBest`. -/
theorem find?_insRev {x : AcceptType} {s : List AcceptType}
    (hx : x.RelativeWeight.wfOrd) (hs : OrdW s)
    (hasc : s.Pairwise (fun a b => wg a ≤ wg b)) :
    (insRev x s).reverse.find? supported = stepBest (s.reverse.find? supported) x := by
  rw [insRev_eq]
  have hsrev : s.reverse.find? supported
      = ((s.dropWhile (bubbles x)).reverse.find? supported).or
        ((s.takeWhile (bubbles x)).reverse.find? supported) := by
    conv_lhs => rw [← List.takeWhile_append_dropWhile (p := bubbles x) (l := s)]
    rw [List.reverse_append, List.find?_append]
  rw [List.reverse_append, List.reverse_cons, List.append_assoc, List.find?_append,
    List.find?_append, hsrev]
  by_cases hsx : supported x = true
  · have hfx : List.find? supported [x] = some x := List.find?_cons_of_pos _ hsx
    rw [hfx]
    cases hb : (s.dropWhile (bubbles x)).reverse.find? supported with
    | some b =>
      have hbmem : b ∈ s.dropWhile (bubbles x) := by
        have := List.mem_of_find?_eq_some hb
        simpa using this
      have hbfin : b.RelativeWeight.wfOrd :=
        hs b ((List.dropWhile_sublist _).subset hbmem)
      have hxb : wg x ≤ wg b := dropWhile_ge hx hs hasc b hbmem
      have hngt : x.RelativeWeight.gt b.RelativeWeight = false := by
        rw [← Bool.not_eq_true]
        intro hcon
        exact absurd ((GoFloat.gt_e_lt hx hbfin).mp hcon) (not_lt.mpr hxb)
      simp [stepBest, hsx, hngt]
    | none =>
      cases ha : (s.takeWhile (bubbles x)).reverse.find? supported with
      | some a =>
        have hamem : a ∈ s.takeWhile (bubbles x) := by
          have := List.mem_of_find?_eq_some ha
          simpa using this
        have hafin : a.RelativeWeight.wfOrd :=
          hs a ((List.takeWhile_sublist _).subset hamem)
        have hax : wg a < wg x := takeWhile_lt hx hs hamem
        have hgt : x.RelativeWeight.gt a.RelativeWeight = true :=
          (GoFloat.gt_e_lt hx hafin).mpr hax
        simp [stepBest, hsx, hgt]
      | none => simp [stepBest, hsx]
  · have hfx : List.find? supported [x] = none := by
      rw [List.find?_cons_of_neg _ hsx]
      rfl
    rw [hfx]
    cases hb : (s.dropWhile (bubbles x)).reverse.find? supported with
    | some b => simp [stepBest, hsx]
    | none => simp [stepBest, hsx]

/-- Main invariant of the insertion-sort fold: the accumulator is a
weight-ascending arrangement of the input, and the first supported
candidate of its reversal is the earliest-listed maximal supported
candidate. -/
theorem sortAcc_spec (l : List AcceptType) (h : OrdW l) :
    OrdW (sortAcc l) ∧ (sortAcc l).Pairwise (fun a b => wg a ≤ wg b) ∧
      (sortAcc l).reverse.find? supported = bestSupported l := by
  induction l using List.reverseRecOn with
  | nil =>
    exact ⟨fun a ha => absurd ha (List.not_mem_nil a), by simp [sortAcc],
      by simp [sortAcc, bestSupported]⟩
  | append_singleton l x ih =>
    have hl : OrdW l := fun a ha => h a (List.mem_append.mpr (Or.inl ha))
    have hx : x.RelativeWeight.wfOrd :=
      h x (List.mem_append.mpr (Or.inr (List.mem_cons_self _ _)))
    obtain ⟨hfin, hasc, hfind⟩ := ih hl
    have hstep : sortAcc (l ++ [x]) = insRev x (sortAcc l) := by
      simp [sortAcc, List.foldl_append]
    have hbstep : bestSupported (l ++ [x]) = stepBest (bestSupported l) x := by
      simp [bestSupported, List.foldl_append]
    refine ⟨?_, ?_, ?_⟩
    · intro a ha
      rw [hstep] at ha
      rcases mem_insRev.mp ha with rfl | h2
      · exact hx
      · exact hfin a h2
    · rw [hstep]
      exact pairwise_insRev hx hfin hasc
    · rw [hstep, hbstep, ← hfind]
      exact find?_insRev hx hfin hasc

theorem bestSupported_none (l : List AcceptType) :
    bestSupported l = none ↔ ∀ a ∈ l, supported a = false := by
  induction l using List.reverseRecOn with
  | nil => simp [bestSupported]
  | append_singleton l x ih =>
    have hbstep : bestSupported (l ++ [x]) = stepBest (bestSupported l) x := by
      simp [bestSupported, List.foldl_append]
    rw [hbstep]
    constructor
    · intro hst a ha
      by_cases hsx : supported x = true
      · exfalso
        cases hacc : bestSupported l with
        | none => rw [hacc] at hst; simp [stepBest, hsx] at hst
        | some c =>
          rw [hacc] at hst
          by_cases hgt : x.RelativeWeight.gt c.RelativeWeight = true
          · simp [stepBest, hsx, hgt] at hst
          · simp [stepBest, hsx, hgt] at hst
      · have hstep2 : stepBest (bestSupported l) x = bestSupported l := by
          simp [stepBest, hsx]
        rw [hstep2] at hst
        rcases List.mem_append.mp ha with h1 | h2
        · exact (ih.mp hst) a h1
        · rcases List.mem_cons.mp h2 with rfl | h3
          · cases hq : supported a
            · rfl
            · exact absurd hq hsx
          · cases h3
    · intro hall
      have hsx : supported x = false :=
        hall x (List.mem_append.mpr (Or.inr (List.mem_cons_self _ _)))
      have hrest : bestSupported l = none :=
        ih.mpr (fun a ha => hall a (List.mem_append.mpr (Or.inl ha)))
      simp [stepBest, hrest, hsx]

theorem bestSupported_some (l : List AcceptType) (h : OrdW l) :
    ∀ b, bestSupported l = some b →
      b ∈ l ∧ supported b = true ∧
      (∀ a ∈ l, supported a = true → wg a ≤ wg b) ∧
      ∃ l1 l2, l = l1 ++ b :: l2 ∧ ∀ a ∈ l1, supported a = true → wg a < wg b := by
  induction l using List.reverseRecOn with
  | nil => intro b hb; simp [bestSupported] at hb
  | append_singleton l x ih =>
    intro b hb
    have hl : OrdW l := fun a ha => h a (List.mem_append.mpr (Or.inl ha))
    have hx : x.RelativeWeight.wfOrd :=
      h x (List.mem_append.mpr (Or.inr (List.mem_cons_self _ _)))
    have hbstep : bestSupported (l ++ [x]) = stepBest (bestSupported l) x := by
      simp [bestSupported, List.foldl_append]
    rw [hbstep] at hb
    by_cases hsx : supported x = true
    · cases hacc : bestSupported l with
      | none =>
        rw [hacc] at hb
        simp only [stepBest, hsx, if_true] at hb
        rw [Option.some_inj] at hb
        subst hb
        have hallfalse := (bestSupported_none l).mp hacc
        refine ⟨List.mem_append.mpr (Or.inr (List.mem_cons_self _ _)), hsx, ?_, l, [], rfl, ?_⟩
        · intro a ha hsa
          rcases List.mem_append.mp ha with h1 | h2
          · exact absurd hsa (by rw [hallfalse a h1]; simp)
          · rcases List.mem_cons.mp h2 with rfl | h3
            · exact le_refl _
            · cases h3
        · intro a ha hsa
          exact absurd hsa (by rw [hallfalse a ha]; simp)
      | some c =>
        rw [hacc] at hb
        obtain ⟨hcmem, hcsup, hcmax, l1, l2, hdec, hstrict⟩ := ih hl c hacc
        have hcfin : c.RelativeWeight.wfOrd := hl c hcmem
        by_cases hgt : x.RelativeWeight.gt c.RelativeWeight = true
        · simp only [stepBest, hsx, hgt, if_true] at hb
          rw [Option.some_inj] at hb
          subst hb
          have hcx : wg c < wg x := (GoFloat.gt_e_lt hx hcfin).mp hgt
          refine ⟨List.mem_append.mpr (Or.inr (List.mem_cons_self _ _)), hsx, ?_, l, [], rfl, ?_⟩
          · intro a ha hsa
            rcases List.mem_append.mp ha with h1 | h2
            · exact le_of_lt (lt_of_le_of_lt (hcmax a h1 hsa) hcx)
            · rcases List.mem_cons.mp h2 with rfl | h3
              · exact le_refl _
              · cases h3
          · intro a ha hsa
            exact lt_of_le_of_lt (hcmax a ha hsa) hcx
        · have hgt' : x.RelativeWeight.gt c.RelativeWeight = false := by
            rwa [Bool.not_eq_true] at hgt
          simp only [stepBest, hsx, hgt', if_true, Bool.false_eq_true, if_false] at hb
          rw [Option.some_inj] at hb
          subst hb
          have hxc : wg x ≤ wg c := by
            by_contra hcon
            exact hgt ((GoFloat.gt_e_lt hx hcfin).mpr (lt_of_not_le hcon))
          refine ⟨List.mem_append.mpr (Or.inl hcmem), hcsup, ?_, l1, l2 ++ [x], ?_, hstrict⟩
          · intro a ha hsa
            rcases List.mem_append.mp ha with h1 | h2
            · exact hcmax a h1 hsa
            · rcases List.mem_cons.mp h2 with rfl | h3
              · exact hxc
              · cases h3
          · rw [hdec]
            simp
    · have hstep2 : stepBest (bestSupported l) x = bestSupported l := by
        simp [stepBest, hsx]
      rw [hstep2] at hb
      obtain ⟨hcmem, hcsup, hcmax, l1, l2, hdec, hstrict⟩ := ih hl b hb
      refine ⟨List.mem_append.mpr (Or.inl hcmem), hcsup, ?_, l1, l2 ++ [x], ?_, hstrict⟩
      · intro a ha hsa
        rcases List.mem_append.mp ha with h1 | h2
        · exact hcmax a h1 hsa
        · rcases List.mem_cons.mp h2 with rfl | h3
          · exact absurd hsa hsx
          · cases h3
      · rw [hdec]
        simp

theorem firstMatch_eq (l : List AcceptType) :
    firstMatch l = match l.find? supported with
      | some a => (matchType a.MediaType).getD "text/plain"
      | none => "text/plain" := by
  induction l with
  | nil => simp [firstMatch, List.find?]
  | cons a rest ih =>
    cases hm : matchType a.MediaType with
    | some s =>
      have hsa : supported a = true := by simp [supported, hm]
      rw [List.find?_cons_of_pos _ hsa]
      simp [firstMatch, hm]
    | none =>
      have hsa : ¬ supported a = true := by simp [supported, hm]
      rw [List.find?_cons_of_neg _ hsa]
      simpa [firstMatch, hm] using ih

/-- The full pipeline characterization under finite weights. -/
theorem mostAcceptableL_best (accept : List Char) (h : OrdW (acceptableFor accept)) :
    mostAcceptableL accept = match bestSupported (acceptableFor accept) with
      | some b => (matchType b.MediaType).getD "text/plain"
      | none => "text/plain" := by
  obtain ⟨_, _, hfind⟩ := sortAcc_spec (acceptableFor accept) h
  unfold mostAcceptableL
  rw [sortAccept_eq, firstMatch_eq, hfind]

instance (l : List AcceptType) : Decidable (OrdW l) := by
  unfold OrdW
  infer_instance

theorem mem_foldl_insRev (a : AcceptType) :
    ∀ (l acc : List AcceptType),
      (a ∈ l.foldl (fun acc x => insRev x acc) acc ↔ a ∈ acc ∨ a ∈ l) := by
  intro l
  induction l with
  | nil => intro acc; simp
  | cons x xs ih =>
    intro acc
    rw [List.foldl_cons, ih (insRev x acc)]
    rw [mem_insRev]
    constructor
    · rintro ((rfl | h) | h)
      · exact Or.inr (List.mem_cons_self _ _)
      · exact Or.inl h
      · exact Or.inr (List.mem_cons_of_mem _ h)
    · rintro (h | h)
      · exact Or.inl (Or.inr h)
      · rcases List.mem_cons.mp h with rfl | h2
        · exact Or.inl (Or.inl rfl)
        · exact Or.inr h2

theorem mem_sortAccept {a : AcceptType} {l : List AcceptType} :
    a ∈ sortAccept l ↔ a ∈ l := by
  unfold sortAccept
  rw [List.mem_reverse, mem_foldl_insRev]
  simp

theorem firstMatch_all_none (l : List AcceptType)
    (h : ∀ a ∈ l, matchType a.MediaType = none) : firstMatch l = "text/plain" := by
  induction l with
  | nil => rfl
  | cons a rest ih =>
    have ha := h a (List.mem_cons_self _ _)
    simp only [firstMatch, ha]
    exact ih (fun b hb => h b (List.mem_cons_of_mem _ hb))

theorem matchType_cases (mt : List Char) :
    matchType mt = none ∨ matchType mt = some "text/plain" ∨
    matchType mt = some "text/html" ∨ matchType mt = some "application/json" := by
  unfold matchType
  split_ifs <;> simp

theorem firstMatch_mem (l : List AcceptType) :
    firstMatch l = "text/plain" ∨ firstMatch l = "text/html" ∨
    firstMatch l = "application/json" := by
  induction l with
  | nil => left; rfl
  | cons a rest ih =>
    rcases matchType_cases a.MediaType with h | h | h | h
    · simp only [firstMatch, h]
      exact ih
    · simp [firstMatch, h]
    · simp [firstMatch, h]
    · simp [firstMatch, h]

theorem mostAcceptableL_single (accept : List Char) (a : AcceptType)
    (h : acceptableFor accept = [a]) :
    mostAcceptableL accept = (matchType a.MediaType).getD "text/plain" := by
  unfold mostAcceptableL
  rw [h]
  have hs : sortAccept [a] = [a] := rfl
  rw [hs]
  cases hm : matchType a.MediaType <;> simp [firstMatch, hm]

/-! ### Claim theorems -/

/-- C1: for every Accept header whose parsed candidates carry ordered
(non-NaN) weights — every header except those smuggling `q=nan`, the one
value on which "sorted by weight descending" is undefined — the sorted
candidate list is weight-descending, and `mostAcceptable` returns the
mapped type of the earliest-listed supported candidate of maximal
weight: a supported candidate of strictly higher weight wins, ties go to
the earliest listed, and an unsupported candidate never wins; moreover
`resolve("text/css, text/plain; q=0.8, text/html; q=0.9") = "text/html"`. -/
theorem mostAcceptable_stable_negotiation :
    (∀ accept : String, OrdW (acceptableFor accept.toList) →
      (sortAccept (acceptableFor accept.toList)).Pairwise (fun a b => wg b ≤ wg a) ∧
      ((∃ b l1 l2, acceptableFor accept.toList = l1 ++ b :: l2 ∧
          supported b = true ∧
          mostAcceptable accept = (matchType b.MediaType).getD "text/plain" ∧
          (∀ a ∈ acceptableFor accept.toList, supported a = true → wg a ≤ wg b) ∧
          (∀ a ∈ l1, supported a = true → wg a < wg b)) ∨
        ((∀ a ∈ acceptableFor accept.toList, supported a = false) ∧
          mostAcceptable accept = "text/plain"))) ∧
    mostAcceptable "text/css, text/plain; q=0.8, text/html; q=0.9" = "text/html" := by
  constructor
  · intro accept h
    constructor
    · have hpw := (sortAcc_spec _ h).2.1
      rw [sortAccept_eq, List.pairwise_reverse]
      exact hpw
    · cases hbest : bestSupported (acceptableFor accept.toList) with
      | some b =>
        obtain ⟨hmem, hsup, hmax, l1, l2, hdec, hstrict⟩ := bestSupported_some _ h b hbest
        left
        refine ⟨b, l1, l2, hdec, hsup, ?_, hmax, hstrict⟩
        unfold mostAcceptable
        rw [mostAcceptableL_best _ h, hbest]
      | none =>
        right
        refine ⟨(bestSupported_none _).mp hbest, ?_⟩
        unfold mostAcceptable
        rw [mostAcceptableL_best _ h, hbest]
  · decide

theorem mostAcceptable_stable_negotiation_witness :
    (sortAccept (acceptableFor
        ("text/css, text/plain; q=0.8, text/html; q=0.9" : String).toList)).Pairwise
      (fun a b => wg b ≤ wg a) :=
  (mostAcceptable_stable_negotiation.1 "text/css, text/plain; q=0.8, text/html; q=0.9"
    (by decide)).1

/-- C2: a header consisting of a single parsed candidate resolves by the
fixed table (the mapping of the candidate's media type, with the
`text/plain` default), and in particular the five listed single-token
headers map as the table states. -/
theorem mostAcceptable_single_token_table :
    (∀ (accept : String) (a : AcceptType), acceptableFor accept.toList = [a] →
      mostAcceptable accept = (matchType a.MediaType).getD "text/plain") ∧
    mostAcceptable "text/plain" = "text/plain" ∧
    mostAcceptable "*/*" = "text/plain" ∧
    mostAcceptable "text/html" = "text/html" ∧
    mostAcceptable "application/xhtml+xml" = "text/html" ∧
    mostAcceptable "application/json" = "application/json" := by
  refine ⟨?_, by decide, by decide, by decide, by decide, by decide⟩
  intro accept a h
  exact mostAcceptableL_single accept.toList a h

theorem mostAcceptable_single_token_table_witness :
    acceptableFor ("text/plain" : String).toList
      = [⟨"text/plain".toList, GoFloat.finite ⟨1, 1⟩⟩] ∧
    mostAcceptable "text/plain"
      = (matchType (AcceptType.mk "text/plain".toList (GoFloat.finite ⟨1, 1⟩)).MediaType).getD
          "text/plain" :=
  ⟨by decide,
    mostAcceptable_single_token_table.1 "text/plain"
      ⟨"text/plain".toList, GoFloat.finite ⟨1, 1⟩⟩ (by decide)⟩

/-- C3: when no parsed candidate's media type matches a row of the table
(and in particular for the empty header, which parses to zero
candidates), `mostAcceptable` returns `"text/plain"`; in particular
`resolve("") = "text/plain"` and `resolve("lol/wut") = "text/plain"`. -/
theorem mostAcceptable_default_fallback :
    (∀ accept : String,
      (∀ a ∈ acceptableFor accept.toList, matchType a.MediaType = none) →
      mostAcceptable accept = "text/plain") ∧
    mostAcceptable "" = "text/plain" ∧
    mostAcceptable "lol/wut" = "text/plain" := by
  refine ⟨?_, by decide, by decide⟩
  intro accept h
  unfold mostAcceptable mostAcceptableL
  exact firstMatch_all_none _ (fun a ha => h a (mem_sortAccept.mp ha))

theorem mostAcceptable_default_fallback_witness :
    (∀ a ∈ acceptableFor ("lol/wut" : String).toList, matchType a.MediaType = none) ∧
    mostAcceptable "lol/wut" = "text/plain" :=
  ⟨by decide, mostAcceptable_default_fallback.1 "lol/wut" (by decide)⟩

/-- An HTTP response as far as the license handler determines it. -/
structure HttpResponse where
  status : ℕ
  contentType : String
  body : List Char
deriving DecidableEq, Repr

/-- The per-request dispatch of the handler built by `handlerFor`: a
`switch` on `mostAcceptable` writing one of the three pre-rendered bodies
(implicit status 200) with the matching Content-Type, with the default
branch responding via `http.Error` (status 406 Not Acceptable,
`text/plain; charset=utf-8`, diagnostic plus newline). -/
def licenseServe (plainData htmlData jsonData : List Char) (accept : String) : HttpResponse :=
  let mediatype := mostAcceptable accept
  if mediatype = "text/plain" then ⟨200, "text/plain", plainData⟩
  else if mediatype = "text/html" then ⟨200, "text/html", htmlData⟩
  else if mediatype = "application/json" then ⟨200, "application/json", jsonData⟩
  else ⟨406, "text/plain; charset=utf-8",
    "unrecognized media type: ".toList ++ mediatype.toList ++ ['\n']⟩

/-- C4: `mostAcceptable` always returns one of the three supported media
type strings, so the license handler's 406 default branch is unreachable:
every request is answered with status 200, Content-Type exactly the
resolved string, and the corresponding pre-rendered body. -/
theorem mostAcceptable_closed_range :
    ∀ accept : String,
      (mostAcceptable accept = "text/plain" ∨ mostAcceptable accept = "text/html" ∨
        mostAcceptable accept = "application/json") ∧
      ∀ plainData htmlData jsonData : List Char,
        (licenseServe plainData htmlData jsonData accept).status = 200 ∧
        (licenseServe plainData htmlData jsonData accept).status ≠ 406 ∧
        (licenseServe plainData htmlData jsonData accept).contentType = mostAcceptable accept ∧
        ((mostAcceptable accept = "text/plain" ∧
            (licenseServe plainData htmlData jsonData accept).body = plainData) ∨
          (mostAcceptable accept = "text/html" ∧
            (licenseServe plainData htmlData jsonData accept).body = htmlData) ∨
          (mostAcceptable accept = "application/json" ∧
            (licenseServe plainData htmlData jsonData accept).body = jsonData)) := by
  intro accept
  have hmem : mostAcceptable accept = "text/plain" ∨ mostAcceptable accept = "text/html" ∨
      mostAcceptable accept = "application/json" := firstMatch_mem _
  refine ⟨hmem, ?_⟩
  intro plainData htmlData jsonData
  rcases hmem with h | h | h <;>
    refine ⟨?_, ?_, ?_, ?_⟩ <;>
    simp [licenseServe, h]

/-- C10: a supported candidate with weight zero is not disqualified: a
header whose single parsed candidate is supported with `q = 0` resolves
to that candidate's mapped type, not to the default; in particular
`resolve("application/json;q=0") = "application/json"`. -/
theorem zero_weight_not_disqualified :
    (∀ (accept : String) (a : AcceptType), acceptableFor accept.toList = [a] →
      a.RelativeWeight = GoFloat.finite ⟨0, 1⟩ → supported a = true →
      mostAcceptable accept = (matchType a.MediaType).getD "text/plain" ∧
      (matchType a.MediaType).isSome = true) ∧
    mostAcceptable "application/json;q=0" = "application/json" := by
  refine ⟨?_, by decide⟩
  intro accept a h _ hsup
  exact ⟨mostAcceptableL_single accept.toList a h, hsup⟩

theorem zero_weight_not_disqualified_witness :
    acceptableFor ("application/json;q=0" : String).toList
      = [⟨"application/json".toList, GoFloat.finite ⟨0, 1⟩⟩] ∧
    mostAcceptable "application/json;q=0"
      = (matchType (AcceptType.mk "application/json".toList
          (GoFloat.finite ⟨0, 1⟩)).MediaType).getD "text/plain" ∧
    (matchType (AcceptType.mk "application/json".toList
      (GoFloat.finite ⟨0, 1⟩)).MediaType).isSome = true :=
  ⟨by decide,
    (zero_weight_not_disqualified.1 "application/json;q=0" _ (by decide) (by decide)
      (by decide)).1,
    (zero_weight_not_disqualified.1 "application/json;q=0" _ (by decide) (by decide)
      (by decide)).2⟩

/-! ### NaN weights (C5) -/

theorem cmpWeight_nan_left (w : GoFloat) : cmpWeight GoFloat.nan w = 0 := by
  cases w <;> rfl

theorem cmpWeight_nan_right (w : GoFloat) : cmpWeight w GoFloat.nan = 0 := by
  cases w <;> rfl

theorem insRev_append_last {x a : AcceptType} (acc : List AcceptType)
    (h : ¬ cmpWeight x.RelativeWeight a.RelativeWeight < 0) :
    insRev x (acc ++ [a]) = insRev x acc ++ [a] := by
  induction acc with
  | nil => simp [insRev, h]
  | cons y ys ih =>
    by_cases hy : cmpWeight x.RelativeWeight y.RelativeWeight < 0
    · simp [insRev, hy, ih]
    · simp [insRev, hy]

/-- C5 counterexample: the header `"text/html;q=nan, application/json;q=1"`
parses to a NaN-weighted `text/html` candidate followed by a supported
`application/json` candidate with the valid weight 1, and `mostAcceptable`
returns `"text/html"` — the NaN-weighted candidate wins in preference to a
supported candidate carrying a valid weight, so the claim that such a
candidate is treated as non-matching/low priority (clamped or discarded)
is false of the code. -/
theorem nan_weight_counterexample :
    acceptableFor "text/html;q=nan, application/json;q=1".toList
      = [⟨"text/html".toList, GoFloat.nan⟩,
         ⟨"application/json".toList, GoFloat.finite ⟨1, 1⟩⟩] ∧
    mostAcceptable "text/html;q=nan, application/json;q=1" = "text/html" :=
  ⟨by decide, by decide⟩

/-- C5 (amended): negotiation never fails (the result is always one of
the three supported strings), but a NaN weight is not clamped or
discarded: it enters the comparator, which reports NaN tied with every
weight, so a NaN-weighted candidate keeps its original position in the
stable sort (a NaN-weighted head stays first and may win); a negative
weight is an ordinary value that sorts below every nonnegative weight. -/
theorem nan_weight_behavior :
    (∀ w : GoFloat, cmpWeight GoFloat.nan w = 0 ∧ cmpWeight w GoFloat.nan = 0) ∧
    (∀ (a : AcceptType) (l : List AcceptType), a.RelativeWeight = GoFloat.nan →
      sortAccept (a :: l) = a :: sortAccept l) ∧
    (∀ x y : Frac, x.wf → y.wf → x.toQ < 0 → 0 ≤ y.toQ →
      GoFloat.gt (GoFloat.finite y) (GoFloat.finite x) = true ∧
      GoFloat.gt (GoFloat.finite x) (GoFloat.finite y) = false) ∧
    (∀ accept : String, mostAcceptable accept = "text/plain" ∨
      mostAcceptable accept = "text/html" ∨ mostAcceptable accept = "application/json") := by
  refine ⟨fun w => ⟨cmpWeight_nan_left w, cmpWeight_nan_right w⟩, ?_, ?_, fun _ => firstMatch_mem _⟩
  · intro a l ha
    unfold sortAccept
    rw [List.foldl_cons]
    have h1 : insRev a [] = ([] : List AcceptType) ++ [a] := rfl
    rw [h1]
    have key : ∀ (m acc : List AcceptType),
        m.foldl (fun acc x => insRev x acc) (acc ++ [a])
          = m.foldl (fun acc x => insRev x acc) acc ++ [a] := by
      intro m
      induction m with
      | nil => intro acc; rfl
      | cons x xs ih =>
        intro acc
        rw [List.foldl_cons, List.foldl_cons,
          insRev_append_last acc (by rw [ha, cmpWeight_nan_right]; decide), ih]
    rw [key l []]
    simp
  · intro x y hx hy hxneg hypos
    have hgt : GoFloat.gt (GoFloat.finite y) (GoFloat.finite x) = true :=
      (Frac.gt_toQ hy hx).mpr (lt_of_lt_of_le hxneg hypos)
    refine ⟨hgt, ?_⟩
    rw [← Bool.not_eq_true]
    intro hcon
    exact absurd ((Frac.gt_toQ hx hy).mp hcon)
      (not_lt.mpr (le_trans (le_of_lt hxneg) hypos))

theorem nan_weight_behavior_witness :
    sortAccept [⟨"text/html".toList, GoFloat.nan⟩,
        ⟨"application/json".toList, GoFloat.finite ⟨1, 1⟩⟩]
      = ⟨"text/html".toList, GoFloat.nan⟩ ::
        sortAccept [⟨"application/json".toList, GoFloat.finite ⟨1, 1⟩⟩] ∧
    GoFloat.gt (GoFloat.finite ⟨1, 1⟩) (GoFloat.finite ⟨-1, 1⟩) = true :=
  ⟨nan_weight_behavior.2.1 _ _ rfl,
    (nan_weight_behavior.2.2.1 ⟨-1, 1⟩ ⟨1, 1⟩ (by decide) (by decide)
      (by norm_num [Frac.toQ]) (by norm_num [Frac.toQ])).1⟩

/-! ### Weight defaulting (C7) -/

/-- C7 counterexample: the header `"text/plain;q=5"` yields an
`AcceptType` whose `RelativeWeight` is exactly 5, which lies outside
`[0,1]` — the parsed `q` value is stored unclamped, so the claimed
invariant `RelativeWeight ∈ [0,1]` is false of the code. -/
theorem weight_range_counterexample :
    acceptableFor "text/plain;q=5".toList
      = [⟨"text/plain".toList, GoFloat.finite ⟨5, 1⟩⟩] ∧
    ¬ Frac.toQ ⟨5, 1⟩ ≤ 1 := by
  refine ⟨by decide, ?_⟩
  norm_num [Frac.toQ]

/-- C7 (amended): every `AcceptType` built during negotiation carries
exactly the parsed `q` value when `q` parses (a value that may lie
outside `[0,1]`, or be NaN or an infinity), and exactly the default 1.0
whenever `q` is absent or does not parse. -/
theorem weight_parse_amended :
    ∀ (v mt : List Char) (params : List (List Char × List Char)),
      parseMediaType v = some (mt, params) →
      (parseFloat ((lookupA params ['q']).getD []) = none →
        parseOption v = some ⟨mt, GoFloat.finite ⟨1, 1⟩⟩) ∧
      (∀ w, parseFloat ((lookupA params ['q']).getD []) = some w →
        parseOption v = some ⟨mt, w⟩) := by
  intro v mt params h
  constructor
  · intro hq
    simp [parseOption, h, hq]
  · intro w hq
    simp [parseOption, h, hq]

theorem weight_parse_amended_witness :
    parseOption "text/plain".toList
      = some ⟨"text/plain".toList, GoFloat.finite ⟨1, 1⟩⟩ ∧
    parseOption "text/plain;q=0.8".toList
      = some ⟨"text/plain".toList, GoFloat.finite ⟨8, 10⟩⟩ :=
  ⟨(weight_parse_amended "text/plain".toList "text/plain".toList [] (by decide)).1
      (by decide),
    (weight_parse_amended "text/plain;q=0.8".toList "text/plain".toList
      [("q".toList, "0.8".toList)] (by decide)).2 _ (by decide)⟩

/-! ### Token filtering (C6) -/

/-- `strings.Join(ps, ",")`. -/
def joinComma : List (List Char) → List Char
  | [] => []
  | [p] => p
  | p :: q :: ps => p ++ ',' :: joinComma (q :: ps)

theorem splitComma_ne_nil (l : List Char) : splitComma l ≠ [] := by
  cases l with
  | nil => simp [splitComma]
  | cons c rest =>
    by_cases h : c = ','
    · simp [splitComma, h]
    · simp only [splitComma, h, if_false]
      cases hs : splitComma rest <;> simp

theorem noComma_splitComma (l : List Char) : ∀ p ∈ splitComma l, (',' : Char) ∉ p := by
  induction l with
  | nil =>
    intro p hp
    simp [splitComma] at hp
    subst hp
    simp
  | cons c rest ih =>
    intro p hp
    by_cases h : c = ','
    · simp only [splitComma, h, if_pos rfl] at hp
      rcases List.mem_cons.mp hp with rfl | hp2
      · simp
      · exact ih p hp2
    · obtain ⟨q, ps, hs⟩ := List.exists_cons_of_ne_nil (splitComma_ne_nil rest)
      simp only [splitComma, h, if_false, hs] at hp
      rcases List.mem_cons.mp hp with rfl | hp2
      · intro hcon
        rcases List.mem_cons.mp hcon with h1 | h2
        · exact h h1.symm
        · exact ih q (hs ▸ List.mem_cons_self _ _) h2
      · exact ih p (hs ▸ List.mem_cons_of_mem _ hp2)

theorem joinComma_cons_cons (c : Char) (q : List Char) (ps : List (List Char)) :
    joinComma ((c :: q) :: ps) = c :: joinComma (q :: ps) := by
  cases ps <;> simp [joinComma]

theorem join_splitComma (l : List Char) : joinComma (splitComma l) = l := by
  induction l with
  | nil => rfl
  | cons c rest ih =>
    by_cases h : c = ','
    · subst h
      simp only [splitComma, if_pos rfl]
      obtain ⟨q, ps, hs⟩ := List.exists_cons_of_ne_nil (splitComma_ne_nil rest)
      rw [hs]
      show ([] : List Char) ++ ',' :: joinComma (q :: ps) = ',' :: rest
      rw [← hs, ih]
      rfl
    · obtain ⟨q, ps, hs⟩ := List.exists_cons_of_ne_nil (splitComma_ne_nil rest)
      simp only [splitComma, h, if_false, hs]
      rw [joinComma_cons_cons, ← hs, ih]

theorem splitComma_no_comma (p : List Char) (h : (',' : Char) ∉ p) :
    splitComma p = [p] := by
  induction p with
  | nil => rfl
  | cons c cs ih =>
    have hc : ¬ c = ',' := fun hcon => h (hcon ▸ List.mem_cons_self _ _)
    have hcs := ih (fun hcon => h (List.mem_cons_of_mem _ hcon))
    simp [splitComma, hc, hcs]

theorem splitComma_append (p t : List Char) (h : (',' : Char) ∉ p) :
    splitComma (p ++ ',' :: t) = p :: splitComma t := by
  induction p with
  | nil => simp [splitComma]
  | cons c cs ih =>
    have hc : ¬ c = ',' := fun hcon => h (hcon ▸ List.mem_cons_self _ _)
    have hcs := ih (fun hcon => h (List.mem_cons_of_mem _ hcon))
    simp [splitComma, hc, hcs]

theorem split_joinComma : ∀ ps : List (List Char), ps ≠ [] →
    (∀ p ∈ ps, (',' : Char) ∉ p) → splitComma (joinComma ps) = ps
  | [], h, _ => absurd rfl h
  | [p], _, h => by
    simp only [joinComma]
    exact splitComma_no_comma p (h p (List.mem_singleton.mpr rfl))
  | p :: q :: ps, _, h => by
    simp only [joinComma]
    rw [splitComma_append p _ (h p (List.mem_cons_self _ _))]
    rw [split_joinComma (q :: ps) (by simp) (fun r hr => h r (List.mem_cons_of_mem _ hr))]

theorem filterMap_filter_isSome (l : List (List Char)) :
    (l.filter (fun t => (parseOption t).isSome)).filterMap parseOption
      = l.filterMap parseOption := by
  induction l with
  | nil => rfl
  | cons x xs ih =>
    cases hx : parseOption x with
    | none => simp [List.filter, List.filterMap, hx, ih]
    | some a => simp [List.filter, List.filterMap, hx, ih]

/-- C6: tokens that fail to parse are silently excluded: resolving a
header gives the same result as resolving the header re-assembled
(comma-joined) from only its parseable tokens; a malformed token never
changes the outcome. -/
theorem malformed_tokens_excluded :
    ∀ accept : String,
      mostAcceptable (String.mk (joinComma ((splitComma accept.toList).filter
        (fun t => (parseOption t).isSome)))) = mostAcceptable accept := by
  intro accept
  by_cases hk : (splitComma accept.toList).filter (fun t => (parseOption t).isSome) = []
  · have hnone : ∀ t ∈ splitComma accept.toList, parseOption t = none := by
      intro t ht
      cases hp : parseOption t with
      | none => rfl
      | some a =>
        have hmem : t ∈ (splitComma accept.toList).filter
            (fun t => (parseOption t).isSome) :=
          List.mem_filter.mpr ⟨ht, by simp [hp]⟩
        rw [hk] at hmem
        cases hmem
    have hr : acceptableFor accept.toList = [] := by
      unfold acceptableFor
      exact List.filterMap_eq_nil_iff.mpr hnone
    rw [hk]
    have hlhs : mostAcceptable (String.mk (joinComma [])) = "text/plain" := by decide
    rw [hlhs]
    unfold mostAcceptable mostAcceptableL
    rw [hr]
    rfl
  · have hnoc : ∀ p ∈ (splitComma accept.toList).filter
        (fun t => (parseOption t).isSome), (',' : Char) ∉ p := by
      intro p hp
      exact noComma_splitComma accept.toList p (List.mem_filter.mp hp).1
    have hsj := split_joinComma _ hk hnoc
    unfold mostAcceptable mostAcceptableL acceptableFor
    have hml : (String.mk (joinComma ((splitComma accept.toList).filter
        (fun t => (parseOption t).isSome)))).toList
        = joinComma ((splitComma accept.toList).filter
            (fun t => (parseOption t).isSome)) := rfl
    rw [hml, hsj, filterMap_filter_isSome]

/-! ### LicenseData and JSON rendering (C8) -/

/-- The `LicenseData` struct of main.go, with JSON tags `title`,
`content`, `url` on its three fields in order. -/
structure LicenseData where
  Title : List Char
  Text : List Char
  URL : List Char
deriving DecidableEq, Repr

/-- Lowercase hex digits, as in `encoding/json`'s `hex` table. -/
def hexDigit (n : ℕ) : Char :=
  if n < 10 then Char.ofNat ('0'.toNat + n) else Char.ofNat ('a'.toNat + n - 10)

/-- `encoding/json`'s string escaping for one rune (with the default
`escapeHTML = true`): quote, backslash, `\n`, `\r`, `\t` get two-byte
escapes, other control characters `\u00XX`, the HTML-sensitive `<`, `>`,
`&` are `\u`-escaped, U+2028/U+2029 are `\u`-escaped, everything else
passes through.  (Go additionally replaces invalid UTF-8 with U+FFFD,
which cannot arise for Lean characters.) -/
def escapeChar (c : Char) : List Char :=
  if c = '"' then ['\\', '"']
  else if c = '\\' then ['\\', '\\']
  else if c = '\n' then ['\\', 'n']
  else if c = '\r' then ['\\', 'r']
  else if c = '\t' then ['\\', 't']
  else if c.toNat < 0x20 then
    ['\\', 'u', '0', '0', hexDigit (c.toNat / 16), hexDigit (c.toNat % 16)]
  else if c = '<' then ['\\', 'u', '0', '0', '3', 'c']
  else if c = '>' then ['\\', 'u', '0', '0', '3', 'e']
  else if c = '&' then ['\\', 'u', '0', '0', '2', '6']
  else if c.toNat = 0x2028 then ['\\', 'u', '2', '0', '2', '8']
  else if c.toNat = 0x2029 then ['\\', 'u', '2', '0', '2', '9']
  else [c]

def escapeJSON : List Char → List Char
  | [] => []
  | c :: rest => escapeChar c ++ escapeJSON rest

/-- A JSON string literal: quote, escaped content, quote. -/
def quoteJSON (s : List Char) : List Char := '"' :: escapeJSON s ++ ['"']

/-- `toJSON`: `json.Marshal` of a `LicenseData`, a compact object with
the struct's fields in declaration order under their tag names (Marshal
cannot fail on a struct of strings, so the error path of `toJSON` in
main.go is never taken). -/
def toJSON (l : LicenseData) : List Char :=
  '{' :: (quoteJSON "title".toList ++ ':' :: quoteJSON l.Title ++
    ',' :: quoteJSON "content".toList ++ ':' :: quoteJSON l.Text ++
    ',' :: quoteJSON "url".toList ++ ':' :: quoteJSON l.URL) ++ ['}']

/-- Modelled from the spec: a JSON decoder for the fragment that
`toJSON` emits (`"JSON-decoding its content field"`).  `hexVal` decodes
one hex digit. -/
def hexVal (c : Char) : Option ℕ :=
  if '0' ≤ c ∧ c ≤ '9' then some (c.toNat - '0'.toNat)
  else if 'a' ≤ c ∧ c ≤ 'f' then some (c.toNat - 'a'.toNat + 10)
  else if 'A' ≤ c ∧ c ≤ 'F' then some (c.toNat - 'A'.toNat + 10)
  else none

/-- Modelled from the spec: JSON string-literal body decoder (after the
opening quote), per the JSON grammar: the standard two-character escapes,
`\uXXXX` (rejecting surrogate code units — surrogate pairs are not
needed, since the encoder never emits them), raw control characters
rejected, everything else literal. -/
def strBody : List Char → Option (List Char × List Char)
  | [] => none
  | '"' :: rest => some ([], rest)
  | '\\' :: 'u' :: a :: b :: e :: d :: rest1 =>
    match hexVal a, hexVal b, hexVal e, hexVal d with
    | some x1, some x2, some x3, some x4 =>
      let n := ((x1 * 16 + x2) * 16 + x3) * 16 + x4
      if n < 0xd800 ∨ 0xdfff < n then
        (strBody rest1).map (fun p => (Char.ofNat n :: p.1, p.2))
      else none
    | _, _, _, _ => none
  | '\\' :: e :: rest1 =>
    if e = '"' then (strBody rest1).map (fun p => ('"' :: p.1, p.2))
    else if e = '\\' then (strBody rest1).map (fun p => ('\\' :: p.1, p.2))
    else if e = '/' then (strBody rest1).map (fun p => ('/' :: p.1, p.2))
    else if e = 'b' then (strBody rest1).map (fun p => (Char.ofNat 8 :: p.1, p.2))
    else if e = 'f' then (strBody rest1).map (fun p => (Char.ofNat 12 :: p.1, p.2))
    else if e = 'n' then (strBody rest1).map (fun p => ('\n' :: p.1, p.2))
    else if e = 'r' then (strBody rest1).map (fun p => ('\r' :: p.1, p.2))
    else if e = 't' then (strBody rest1).map (fun p => ('\t' :: p.1, p.2))
    else none
  | ['\\'] => none
  | c :: rest =>
    if c.toNat < 0x20 then none
    else (strBody rest).map (fun p => (c :: p.1, p.2))

/-- Modelled from the spec: member list of a compact JSON object whose
values are string literals, ending exactly at the closing brace. -/
def parseMembers : ℕ → List Char → Option (List (List Char × List Char))
  | 0, _ => none
  | fuel + 1, s =>
    match s with
    | '"' :: rest =>
      match strBody rest with
      | none => none
      | some (key, rest1) =>
        match rest1 with
        | ':' :: '"' :: rest2 =>
          match strBody rest2 with
          | none => none
          | some (value, rest3) =>
            match rest3 with
            | ',' :: rest4 => (parseMembers fuel rest4).map (fun ps => (key, value) :: ps)
            | ['}'] => some [(key, value)]
            | _ => none
        | _ => none
    | _ => none

/-- Modelled from the spec: decoder for a compact JSON object of string
members, as `toJSON` produces. -/
def parseJSONObject (s : List Char) : Option (List (List Char × List Char)) :=
  match s with
  | '{' :: rest => parseMembers (rest.length + 1) rest
  | _ => none

theorem hexVal_hexDigit : ∀ n, n < 16 → hexVal (hexDigit n) = some n := by decide

/-- Decoding inverts encoding for one string literal: the decoder applied
to an escaped body followed by the closing quote recovers the original
characters exactly. -/
theorem strBody_escape : ∀ (s tail : List Char),
    strBody (escapeJSON s ++ '"' :: tail) = some (s, tail)
  | [], tail => by simp [escapeJSON, strBody]
  | c :: rest, tail => by
    have ih := strBody_escape rest tail
    by_cases h1 : c = '"'
    · subst h1
      simp [escapeJSON, escapeChar, strBody, ih]
    · by_cases h2 : c = '\\'
      · subst h2
        simp [escapeJSON, escapeChar, strBody, ih]
      · by_cases h3 : c = '\n'
        · subst h3
          simp [escapeJSON, escapeChar, strBody, ih]
        · by_cases h4 : c = '\r'
          · subst h4
            simp [escapeJSON, escapeChar, strBody, ih]
          · by_cases h5 : c = '\t'
            · subst h5
              simp [escapeJSON, escapeChar, strBody, ih]
            · by_cases h6 : c.toNat < 0x20
              · have hhi := hexVal_hexDigit (c.toNat / 16) (by omega)
                have hlo := hexVal_hexDigit (c.toNat % 16) (by omega)
                have hn : ((0 * 16 + 0) * 16 + c.toNat / 16) * 16 + c.toNat % 16
                    = c.toNat := by omega
                have hval : hexVal '0' = some 0 := by decide
                simp only [escapeJSON, escapeChar, h1, h2, h3, h4, h5, if_neg, if_pos h6,
                  ite_false, ite_true, List.cons_append, List.append_assoc]
                simp only [strBody, hval, hhi, hlo, hn]
                rw [if_pos (Or.inl (by omega : c.toNat < 0xd800))]
                simp [Char.ofNat_toNat, ih]
              · by_cases h7 : c = '<'
                · subst h7
                  simp [escapeJSON, escapeChar, strBody, hexVal, ih]
                · by_cases h8 : c = '>'
                  · subst h8
                    simp [escapeJSON, escapeChar, strBody, hexVal, ih]
                  · by_cases h9 : c = '&'
                    · subst h9
                      simp [escapeJSON, escapeChar, strBody, hexVal, ih]
                    · by_cases h10 : c.toNat = 0x2028
                      · have hc : c = Char.ofNat 0x2028 := by
                          rw [← h10, Char.ofNat_toNat]
                        simp only [escapeJSON, escapeChar, h1, h2, h3, h4, h5, h6, h7, h8,
                          h9, h10, if_neg, if_pos, ite_false, ite_true, List.cons_append]
                        simp [strBody, hexVal, ih, hc]
                      · by_cases h11 : c.toNat = 0x2029
                        · have hc : c = Char.ofNat 0x2029 := by
                            rw [← h11, Char.ofNat_toNat]
                          simp only [escapeJSON, escapeChar, h1, h2, h3, h4, h5, h6, h7, h8,
                            h9, h10, h11, if_neg, if_pos, ite_false, ite_true,
                            List.cons_append]
                          simp [strBody, hexVal, ih, hc]
                        · have hfall : escapeChar c = [c] := by
                            simp [escapeChar, h1, h2, h3, h4, h5, h6, h7, h8, h9, h10, h11]
                          simp only [escapeJSON, hfall, List.cons_append, List.nil_append]
                          have hq : ¬ c = '"' := h1
                          have hb : ¬ c = '\\' := h2
                          have hctl : ¬ c.toNat < 0x20 := h6
                          simp [strBody, hq, hb, hctl, ih]

/-- The byte sequence of a compact JSON object body: members in order,
comma-separated, closing brace. -/
def encodeMembers : List (List Char × List Char) → List Char
  | [] => []
  | [(k, v)] => quoteJSON k ++ ':' :: quoteJSON v ++ ['}']
  | (k, v) :: m :: rest => quoteJSON k ++ ':' :: quoteJSON v ++ ',' :: encodeMembers (m :: rest)

theorem parseMembers_encode : ∀ (ps : List (List Char × List Char)) (fuel : ℕ),
    ps ≠ [] → ps.length ≤ fuel → parseMembers fuel (encodeMembers ps) = some ps
  | [], _, h, _ => absurd rfl h
  | [(k, v)], 0, _, hle => by simp at hle
  | [(k, v)], fuel + 1, _, _ => by
    simp [encodeMembers, quoteJSON, parseMembers, List.append_assoc, strBody_escape]
  | (k, v) :: m :: rest, 0, _, hle => by simp at hle
  | (k, v) :: m :: rest, fuel + 1, _, hle => by
    have ih := parseMembers_encode (m :: rest) fuel (by simp) (by simp at hle ⊢; omega)
    simp [encodeMembers, quoteJSON, parseMembers, List.append_assoc, strBody_escape, ih]

/-- C8: for every `LicenseData`, `toJSON` produces a JSON object with
exactly the three string keys `title`, `content`, `url` (in that order),
and JSON-decoding it recovers in the `content` member a string equal
character-for-character to the original `Text` (and likewise `Title` and
`URL` in theirs). -/
theorem toJSON_roundtrip (l : LicenseData) :
    parseJSONObject (toJSON l)
      = some [("title".toList, l.Title), ("content".toList, l.Text),
              ("url".toList, l.URL)] := by
  have henc : toJSON l = '{' :: encodeMembers
      [("title".toList, l.Title), ("content".toList, l.Text), ("url".toList, l.URL)] := by
    simp [toJSON, encodeMembers, List.append_assoc]
  rw [henc]
  show parseMembers _ _ = _
  exact parseMembers_encode _ _ (by simp) (by simp [encodeMembers, quoteJSON]; omega)

/-! ### Startup construction (C9) -/

/-- `path.Base`: strip trailing slashes, keep the last element (`"."` for
the empty path, `"/"` for all-slash paths). -/
def pathBase (p : List Char) : List Char :=
  if p = [] then ['.']
  else
    let q := (p.reverse.dropWhile (· == '/')).reverse
    if q = [] then ['/']
    else (q.reverse.takeWhile (· != '/')).reverse

/-- `path.Ext`: the suffix from the final dot of the last element, empty
when the last element has no dot. -/
def pathExt (p : List Char) : List Char :=
  let revTail := p.reverse.takeWhile (· != '/')
  let afterDot := revTail.takeWhile (· != '.')
  if afterDot.length = revTail.length then []
  else (afterDot ++ ['.']).reverse

/-- `strings.TrimSuffix`. -/
def trimSuffixL (s suf : List Char) : List Char :=
  if s.reverse.take suf.length = suf.reverse then s.take (s.length - suf.length) else s

/-- `pathToTitle` of main.go: base name with the extension trimmed. -/
def pathToTitle (lpath : List Char) : List Char :=
  trimSuffixL (pathBase lpath) (pathExt lpath)

/-- `pathToURL` of main.go: `/` + lowercased title. -/
def pathToURL (lpath : List Char) : List Char :=
  '/' :: (pathToTitle lpath).map asciiLower

example : pathToTitle "licenses/MIT.txt".toList = "MIT".toList := by decide
example : pathToURL "licenses/MIT.txt".toList = "/mit".toList := by decide

/-- The external collaborators of `appHandler`, abstracted: whether
`template.ParseFS` and `fs.Sub` succeed, the `fs.Glob` result, the
embedded-file reads, the `license.html.tmpl` render, and — for the index
page — both the error value `tmpl.ExecuteTemplate` returns and the bytes
it leaves in the buffer (Go keeps whatever was written before a failure). -/
structure StartupWorld where
  parseTemplatesOk : Bool
  subOk : Bool
  globResult : Option (List (List Char))
  readFile : List Char → Option (List Char)
  renderLicense : LicenseData → Option (List Char)
  renderIndexErr : List LicenseData → Bool
  renderIndexBuf : List LicenseData → List Char

/-- `handlerFor`: read the license file, build the `LicenseData`, render
the HTML and JSON representations; any failure aborts with an error
(`json.Marshal` cannot fail on a struct of strings, so `toJSON` is
total). -/
def handlerFor (w : StartupWorld) (lpath : List Char) :
    Except String (List Char × List Char × List Char × LicenseData) :=
  match w.readFile lpath with
  | none => .error "could not read license"
  | some plainData =>
    let l : LicenseData := ⟨pathToTitle lpath, plainData, pathToURL lpath⟩
    match w.renderLicense l with
    | none => .error "could not render HTML"
    | some htmlData => .ok (plainData, htmlData, toJSON l, l)

/-- The per-license loop of `appHandler`: the first `handlerFor` error
aborts startup. -/
def buildHandlers (w : StartupWorld) :
    List (List Char) → Except String (List (List Char × List Char × List Char × LicenseData))
  | [] => .ok []
  | p :: ps =>
    match handlerFor w p with
    | .error e => .error e
    | .ok h =>
      match buildHandlers w ps with
      | .error e => .error e
      | .ok hs => .ok (h :: hs)

/-- `appHandler`: template parsing, public-FS subsetting and license
globbing failures and every `handlerFor` failure return an error (the
process then panics instead of serving); the index page is pre-rendered
by `newPublicHandler`, which DISCARDS the error `tmpl.ExecuteTemplate`
returns and keeps only the buffer contents — exactly as main.go does. -/
def appHandler (w : StartupWorld) :
    Except String (List (List Char × List Char × List Char × LicenseData) × List Char) :=
  if ¬ w.parseTemplatesOk then .error "could not parse templates"
  else if ¬ w.subOk then .error "could not subsystem public assets"
  else
    match w.globResult with
    | none => .error "could not glob licenses"
    | some paths =>
      match buildHandlers w paths with
      | .error e => .error e
      | .ok hs => .ok (hs, w.renderIndexBuf (hs.map (fun h => h.2.2.2)))

/-- A startup world where every collaborator succeeds. -/
def okWorldBase : StartupWorld where
  parseTemplatesOk := true
  subOk := true
  globResult := some ["licenses/MIT.txt".toList]
  readFile := fun _ => some "MIT License text".toList
  renderLicense := fun _ => some "<html>MIT</html>".toList
  renderIndexErr := fun _ => false
  renderIndexBuf := fun _ => "<html>index</html>".toList

/-- Everything succeeds except rendering `index.html.tmpl`, which fails
and leaves an empty buffer. -/
def badIndexWorld : StartupWorld :=
  { okWorldBase with renderIndexErr := fun _ => true, renderIndexBuf := fun _ => [] }

def noTemplatesWorld : StartupWorld := { okWorldBase with parseTemplatesOk := false }

def unreadableWorld : StartupWorld := { okWorldBase with readFile := fun _ => none }

def noRenderWorld : StartupWorld := { okWorldBase with renderLicense := fun _ => none }

/-- C9 evidence: an unreadable license file, a template-parse failure and
a license-template render failure each make `appHandler` return an error
(startup fails fast), but a render failure of the index page template is
NOT surfaced: `appHandler` still returns `ok` — serving starts with the
partial buffer — although the index render reported an error, because
`newPublicHandler` ignores the `ExecuteTemplate` error value. -/
theorem appHandler_index_render_ignored :
    (∀ ls : List LicenseData, badIndexWorld.renderIndexErr ls = true) ∧
    (appHandler badIndexWorld).isOk = true ∧
    (appHandler noTemplatesWorld).isOk = false ∧
    (appHandler unreadableWorld).isOk = false ∧
    (appHandler noRenderWorld).isOk = false := by
  refine ⟨fun _ => rfl, ?_, ?_, ?_, ?_⟩ <;> decide

end Ynal
